import Mathlib

/-!
Verification development for the message-format core of this repository.

The embedded source is the TypeScript file
src/packages/intl-pluralrules/scripts/cldr.ts, which contains the config
merger (mergeConfig, mergeConfigs), the memoizing formatter cache
(createFastMemoizeCache, createDefaultFormatters), and the message facade
class IntlMessageFormat (constructor, format, formatToParts,
resolvedOptions, static formats).

JavaScript objects are modelled as association lists of key-value pairs in
insertion order.  Property lookup returns the first matching binding,
property assignment overwrites in place when the key is present and
appends otherwise, and the object spread operator folds assignments over
the second object.  A JavaScript object never has two bindings for the
same key, which the well-formedness predicates below record where proofs
need it.
-/

set_option maxHeartbeats 1000000

/-- A JavaScript object as an association list in insertion order.  The key
type is generic so that the same machinery also serves the reference heap
used for the aliasing analysis of the static default configuration. -/
abbrev Obj (K : Type) (V : Type) := List (K × V)

/-- The keys of an object, in insertion order. -/
def keysOf {K V : Type} (o : Obj K V) : List K := o.map Prod.fst

/-- JavaScript property lookup: the first binding of the key, if any. -/
def lookupJS {K V : Type} [DecidableEq K] : Obj K V → K → Option V
  | [], _ => none
  | (k, v) :: t, q => if k = q then some v else lookupJS t q

/-- Lookup with a default, modelling expressions such as c2[k] || ⦃⦄. -/
def getOr {K V : Type} [DecidableEq K] (o : Obj K V) (k : K) (d : V) : V :=
  (lookupJS o k).getD d

/-- JavaScript property assignment: overwrite in place when the key is
present, append a new binding otherwise. -/
def setKey {K V : Type} [DecidableEq K] (o : Obj K V) (k : K) (v : V) : Obj K V :=
  if k ∈ keysOf o then o.map (fun p => if p.1 = k then (k, v) else p)
  else o ++ [(k, v)]

/-- The object spread of b over a, as in the expression spreading a and
then b into a fresh object literal: every binding of b is assigned over a
in order. -/
def spread {K V : Type} [DecidableEq K] (a b : Obj K V) : Obj K V :=
  b.foldl (fun acc p => setKey acc p.1 p.2) a

/-- An object built from an empty accumulator by assigning g k under key k
for each k in ks, modelling the reduce over Object.keys in mergeConfig. -/
def buildFrom {K V : Type} [DecidableEq K] (ks : List K) (g : K → V) : Obj K V :=
  ks.foldl (fun all k => setKey all k (g k)) []

/-- An options record for one named preset, e.g. the style currency record. -/
abbrev Preset := Obj String String

/-- One format category: a mapping from preset name to options record. -/
abbrev Category := Obj String Preset

/-- A full configuration: the top-level categories (number, date, time). -/
abbrev Config := Obj String Category

instance : DecidableEq Preset := fun a b => List.hasDecEq a b

instance : DecidableEq Category := fun a b => List.hasDecEq a b

instance : DecidableEq Config := fun a b => List.hasDecEq a b

/-- Embedding of mergeConfig from the source: if c2 is absent return c1;
otherwise spread c1, then c2, then an object rebuilding every key of c1 as
the shallow merge of the corresponding records of c1 and c2. -/
def mergeConfig {V : Type} (c1 : Obj String (Obj String V))
    (c2 : Option (Obj String (Obj String V))) : Obj String (Obj String V) :=
  match c2 with
  | none => c1
  | some c2 =>
    spread (spread c1 c2)
      (buildFrom (keysOf c1) (fun k => spread (getOr c1 k []) (getOr c2 k [])))

/-- Embedding of mergeConfigs from the source: if configs is absent return
defaultConfig itself; otherwise reduce over the keys of defaultConfig,
starting from a shallow copy of defaultConfig, assigning under each key k
the result of mergeConfig applied to defaultConfig at k and configs at k. -/
def mergeConfigs (defaultConfig : Config) (configs : Option Config) : Config :=
  match configs with
  | none => defaultConfig
  | some cfgs =>
    (keysOf defaultConfig).foldl
      (fun all k => setKey all k (mergeConfig (getOr defaultConfig k []) (lookupJS cfgs k)))
      defaultConfig

/-- Well-formedness of a category (or any two-level object): distinct keys
at both levels, as is automatic for JavaScript objects. -/
def WFCat {V : Type} (c : Obj String (Obj String V)) : Prop :=
  (keysOf c).Nodup ∧ ∀ e ∈ c, (keysOf e.2).Nodup

/-- Well-formedness of a configuration: distinct keys at every level. -/
def WFConfig (cfg : Config) : Prop :=
  (keysOf cfg).Nodup ∧ ∀ e ∈ cfg, WFCat e.2

instance {V : Type} (c : Obj String (Obj String V)) : Decidable (WFCat c) := by
  unfold WFCat; infer_instance

instance (cfg : Config) : Decidable (WFConfig cfg) := by
  unfold WFConfig; infer_instance

namespace IntlMessageFormat

/-- The static default formats object of the IntlMessageFormat class,
transcribed from the source. -/
def formats : Config :=
  [ ("number",
      [ ("currency", [("style", "currency")]),
        ("percent", [("style", "percent")]) ]),
    ("date",
      [ ("short", [("month", "numeric"), ("day", "numeric"), ("year", "2-digit")]),
        ("medium", [("month", "short"), ("day", "numeric"), ("year", "numeric")]),
        ("long", [("month", "long"), ("day", "numeric"), ("year", "numeric")]),
        ("full",
          [("weekday", "long"), ("month", "long"), ("day", "numeric"),
           ("year", "numeric")]) ]),
    ("time",
      [ ("short", [("hour", "numeric"), ("minute", "numeric")]),
        ("medium", [("hour", "numeric"), ("minute", "numeric"), ("second", "numeric")]),
        ("long",
          [("hour", "numeric"), ("minute", "numeric"), ("second", "numeric"),
           ("timeZoneName", "short")]),
        ("full",
          [("hour", "numeric"), ("minute", "numeric"), ("second", "numeric"),
           ("timeZoneName", "short")]) ]) ]

end IntlMessageFormat

/-- A concrete override configuration used in witnesses: it tunes one
option of an existing preset and introduces one preset name that the
default configuration does not know. -/
def sampleOverride : Config :=
  [("number",
     [ ("currency", [("currencyDisplay", "symbol")]),
       ("scientific", [("style", "decimal")]) ])]

/-- The locales argument of the facade: a single tag or a list of tags. -/
abbrev Locales := String ⊕ List String

/-- The dynamic constructor input: a string message, a pre-parsed node
sequence, or some other value (in which case the array check fails). -/
inductive CtorInput (El : Type)
  | str (s : String)
  | arr (nodes : List El)
  | other
  deriving DecidableEq

/-- The two TypeError shapes thrown by the constructor. -/
inductive CtorError
  | parserUnset
  | notStringOrAst
  deriving DecidableEq

/-- The state captured by a successfully constructed facade object. -/
structure MFInstance (El : Type) where
  ast : List El
  message : Option String
  formats : Config
  locales : Locales
  deriving DecidableEq

/-- The record returned by resolvedOptions.  The locale is optional
because indexing an empty array in JavaScript yields undefined. -/
structure ResolvedOpts where
  locale : Option String
  deriving DecidableEq

namespace IntlMessageFormat

/-- Embedding of the IntlMessageFormat constructor.  A string message
requires the static parse reference (else a TypeError is thrown) and is
parsed to the ast; a non-string message is used as the ast directly and
must be an array; the formats are the static defaults merged with the
override formats; the locales argument is stored unchanged. -/
def construct {El : Type} (parseRef : Option (String → Option Bool → List El))
    (message : CtorInput El) (locales : Locales)
    (staticFormats : Config) (overrideFormats : Option Config)
    (ignoreTag : Option Bool) : Except CtorError (MFInstance El) :=
  match message with
  | .str s =>
    match parseRef with
    | none => .error .parserUnset
    | some p =>
      .ok { ast := p s ignoreTag, message := some s,
            formats := mergeConfigs staticFormats overrideFormats,
            locales := locales }
  | .arr nodes =>
    .ok { ast := nodes, message := none,
          formats := mergeConfigs staticFormats overrideFormats,
          locales := locales }
  | .other => .error .notStringOrAst

/-- Embedding of resolvedOptions: the first locale returned by the
external negotiation primitive (supportedLocalesOf), which is passed in
as the function slo. -/
def resolvedOptions {El : Type} (slo : Locales → List String)
    (inst : MFInstance El) : ResolvedOpts :=
  { locale := (slo inst.locales).head? }

end IntlMessageFormat

/-- One output part of formatToParts: a literal string part or a rich
object part carrying a caller-defined value. -/
inductive MessageFormatPart (T : Type)
  | literal (value : String)
  | object (value : T)
  deriving DecidableEq

/-- The possible results of format: a bare string, a bare rich value, or
an ordered sequence of strings and rich values. -/
inductive FormatResult (T : Type)
  | bareString (s : String)
  | bareObject (v : T)
  | seq (elems : List (String ⊕ T))
  deriving DecidableEq

/-- The bare value of a single part, as returned on the hot path. -/
def partValue {T : Type} : MessageFormatPart T → FormatResult T
  | .literal s => .bareString s
  | .object v => .bareObject v

/-- One step of the reduce in format: a non-literal part is pushed; a
literal part is appended to the last element when that element is a
string, and pushed otherwise (also when the accumulator is empty). -/
def coalesceStep {T : Type} (all : List (String ⊕ T)) :
    MessageFormatPart T → List (String ⊕ T)
  | .object v => all ++ [Sum.inr v]
  | .literal s =>
    match all.getLast? with
    | some (Sum.inl t) => all.dropLast ++ [Sum.inl (t ++ s)]
    | _ => all ++ [Sum.inl s]

/-- The reduce of format over the part sequence, starting from an empty
accumulator. -/
def coalesce {T : Type} (parts : List (MessageFormatPart T)) : List (String ⊕ T) :=
  parts.foldl coalesceStep []

namespace IntlMessageFormat

/-- Embedding of the format method as a function of the part sequence
produced by formatToParts (the interpreter itself lives in the external
formatters module).  A single part returns its bare value.  Otherwise the
parts are coalesced; if at most one element remains the source returns
result[0] or, when that is absent or the empty string, the empty string --
for a string s this is s itself, and a singleton rich value cannot arise
from a non-singleton part list (coalesce_singleton_object below). -/
def format {T : Type} (parts : List (MessageFormatPart T)) : FormatResult T :=
  match parts with
  | [p] => partValue p
  | _ =>
    let result := coalesce parts
    if result.length ≤ 1 then
      match result.head? with
      | none => .bareString ""
      | some (Sum.inl s) => .bareString s
      | some (Sum.inr v) => .bareObject v
    else .seq result

end IntlMessageFormat

/-- Auxiliary predicates and projections used to state properties of the
coalesced element sequence. -/
def elemIsString {T : Type} : (String ⊕ T) → Bool
  | Sum.inl _ => true
  | Sum.inr _ => false

/-- No two adjacent elements of the sequence are both strings: every run
of adjacent literal parts has been coalesced into a single string. -/
def NoAdjacentStrings {T : Type} (xs : List (String ⊕ T)) : Prop :=
  List.Chain' (fun a b => elemIsString a = false ∨ elemIsString b = false) xs

instance {T : Type} (xs : List (String ⊕ T)) : Decidable (NoAdjacentStrings xs) := by
  unfold NoAdjacentStrings; infer_instance

/-- The rich value carried by an element, if any. -/
def objElem {T : Type} : (String ⊕ T) → Option T
  | Sum.inl _ => none
  | Sum.inr v => some v

/-- The rich value carried by a part, if any. -/
def objOfPart {T : Type} : MessageFormatPart T → Option T
  | .literal _ => none
  | .object v => some v

/-- The concatenated string content of an element sequence. -/
def textOf {T : Type} : List (String ⊕ T) → String
  | [] => ""
  | Sum.inl s :: t => s ++ textOf t
  | Sum.inr _ :: t => textOf t

/-- The concatenated literal content of a part sequence. -/
def litText {T : Type} : List (MessageFormatPart T) → String
  | [] => ""
  | .literal s :: t => s ++ litText t
  | .object _ :: t => litText t

/-!
Reference-level model of the static default configuration.

The static formats object of the class is globally shared.  To reason
about aliasing, configurations are stored in a heap of numbered cells and
the static field holds a cell number.  The constructor without override
formats returns the static cell number itself, because mergeConfigs
returns its first argument (the very same object) when the overrides are
absent; with overrides it allocates a fresh cell holding the merged value.
Mutating the shared object in place rewrites the content of its cell;
reassigning the static field allocates a fresh cell and repoints the
field, leaving existing cells untouched.
-/

namespace RefModel

/-- The global state: the heap of configuration objects, the next free
cell number, and the cell currently held by the static formats field. -/
structure GState where
  cells : Obj Nat Config
  next : Nat
  staticFormats : Nat
  deriving DecidableEq

/-- Dereference a cell. -/
def heapGet (s : GState) (r : Nat) : Config := getOr s.cells r []

/-- The constructor at reference granularity: it returns the cell number
captured by the new facade object as its formats field, together with the
updated global state. -/
def constructRef (s : GState) (overrideFormats : Option Config) : Nat × GState :=
  match overrideFormats with
  | none => (s.staticFormats, s)
  | some o =>
    (s.next,
      { cells := setKey s.cells s.next (mergeConfigs (heapGet s s.staticFormats) (some o)),
        next := s.next + 1,
        staticFormats := s.staticFormats })

/-- The effective merged configuration a facade observes: the content of
the cell it captured. -/
def effectiveFormats (s : GState) (r : Nat) : Config := heapGet s r

/-- Mutating the shared static object in place: its cell is rewritten. -/
def mutateStaticInPlace (s : GState) (f : Config → Config) : GState :=
  { s with cells := setKey s.cells s.staticFormats (f (heapGet s s.staticFormats)) }

/-- Reassigning the static field to a new configuration object: a fresh
cell is allocated and the field is repointed. -/
def reassignStatic (s : GState) (c : Config) : GState :=
  { cells := setKey s.cells s.next c, next := s.next + 1, staticFormats := s.next }

/-- Well-formedness of a global state: the static field and every
allocated cell lie below the allocation counter. -/
def WFState (s : GState) : Prop :=
  s.staticFormats < s.next ∧ ∀ e ∈ s.cells, e.1 < s.next

instance (s : GState) : Decidable (WFState s) := by
  unfold WFState; infer_instance

end RefModel

/-!
Model of the formatter cache.

createFastMemoizeCache wraps a plain string-keyed record into the cache
API of the external fast-memoize library (has, get, set), and
createDefaultFormatters builds one memoized constructor per formatter
kind, each over its own store of the shared cache object.  The
memoization discipline itself is external and is modelled from the spec:
the arguments are serialized deterministically into a string key; a hit
returns the stored object unchanged, a miss constructs a fresh object,
stores it under the key, and returns it.  Object identity is modelled by
stamping each constructed object with the value of an allocation counter.
-/

/-- The construction arguments of one formatter: the locale list and the
options record (field name, field value) in insertion order. -/
structure FmtArgs where
  locales : List String
  options : List (String × String)
  deriving DecidableEq

/-- A constructed formatter object: an allocation stamp (modelling
reference identity) plus the arguments it was constructed from. -/
structure FmtHandle where
  stamp : Nat
  args : FmtArgs
  deriving DecidableEq

/-- The three formatter kinds with independent stores. -/
inductive FmtKind
  | number
  | dateTime
  | pluralRules
  deriving DecidableEq

/-- The cache object of one facade: three string-keyed stores, as in the
formatterCache field of the class, plus the allocation counter. -/
structure FormatterCache where
  number : Obj String FmtHandle
  dateTime : Obj String FmtHandle
  pluralRules : Obj String FmtHandle
  next : Nat
  deriving DecidableEq

/-- The store of a given kind. -/
def FormatterCache.store (s : FormatterCache) : FmtKind → Obj String FmtHandle
  | .number => s.number
  | .dateTime => s.dateTime
  | .pluralRules => s.pluralRules

/-- Replace the store of a given kind. -/
def FormatterCache.withStore (s : FormatterCache) :
    FmtKind → Obj String FmtHandle → FormatterCache
  | .number, st => { s with number := st }
  | .dateTime, st => { s with dateTime := st }
  | .pluralRules, st => { s with pluralRules := st }

/-- A fresh cache, as built by the field initializer of the class. -/
def emptyCache : FormatterCache := ⟨[], [], [], 0⟩

/-- Modelled from the spec: the get operation of the memoized formatter
factories.  The external fast-memoize library (not part of this
repository) serializes the argument list deterministically into a string
key over the store created by createFastMemoizeCache; on a hit the stored
object is returned unchanged, on a miss a fresh object is constructed,
stored under the key, and returned. -/
def getFormatter (serialize : FmtArgs → String) (kind : FmtKind)
    (s : FormatterCache) (args : FmtArgs) : FmtHandle × FormatterCache :=
  let key := serialize args
  match lookupJS (s.store kind) key with
  | some v => (v, s)
  | none =>
    let v : FmtHandle := ⟨s.next, args⟩
    (v, { s.withStore kind (s.store kind ++ [(key, v)]) with next := s.next + 1 })

/-- Run a sequence of get calls against the cache, returning the final
cache state. -/
def runCalls (serialize : FmtArgs → String) (s : FormatterCache)
    (calls : List (FmtKind × FmtArgs)) : FormatterCache :=
  calls.foldl (fun st c => (getFormatter serialize c.1 st c.2).2) s

/-- The cache invariant maintained by the memoization discipline: every
stored object was constructed from arguments that serialize to its key. -/
def CacheWF (serialize : FmtArgs → String) (s : FormatterCache) : Prop :=
  ∀ kind : FmtKind, ∀ e ∈ s.store kind, serialize e.2.args = e.1

/-!
A concrete injective serialization, used to instantiate the cache
theorems in their witnesses.  Arguments are encoded into a natural number
by iterated pairing and the number is rendered as a string in unary.
-/

/-- Encode a list of naturals injectively into one natural. -/
def encodeListNat : List Nat → Nat
  | [] => 0
  | x :: xs => Nat.pair x (encodeListNat xs) + 1

/-- Encode a string injectively into a natural via its character codes. -/
def encodeStr (s : String) : Nat := encodeListNat (s.data.map Char.toNat)

/-- Encode formatter arguments injectively into a natural. -/
def encodeArgs (a : FmtArgs) : Nat :=
  Nat.pair (encodeListNat (a.locales.map encodeStr))
    (encodeListNat (a.options.map (fun p => Nat.pair (encodeStr p.1) (encodeStr p.2))))

/-- A concrete deterministic and injective serialization of formatter
arguments into a string key. -/
def serializeArgs (a : FmtArgs) : String := String.mk (List.replicate (encodeArgs a) 'k')

/-! Lemmas about the object model. -/

theorem mem_keysOf_of_mem {K V : Type} {o : Obj K V} {p : K × V} (h : p ∈ o) :
    p.1 ∈ keysOf o :=
  List.mem_map_of_mem Prod.fst h

theorem keysOf_cons {K V : Type} (k : K) (v : V) (t : Obj K V) :
    keysOf ((k, v) :: t) = k :: keysOf t := rfl

theorem keysOf_append {K V : Type} (a b : Obj K V) :
    keysOf (a ++ b) = keysOf a ++ keysOf b :=
  List.map_append _ _ _

theorem lookupJS_eq_none_iff {K V : Type} [DecidableEq K] {o : Obj K V} {q : K} :
    lookupJS o q = none ↔ q ∉ keysOf o := by
  induction o with
  | nil => simp [lookupJS, keysOf]
  | cons p t ih =>
    obtain ⟨k, v⟩ := p
    by_cases h : k = q
    · subst h
      simp [lookupJS, keysOf_cons]
    · simp only [lookupJS, if_neg h, keysOf_cons, List.mem_cons]
      rw [ih, not_or]
      exact (and_iff_right (fun he : q = k => h he.symm)).symm

theorem lookupJS_some_mem {K V : Type} [DecidableEq K] {o : Obj K V} {q : K} {v : V}
    (h : lookupJS o q = some v) : (q, v) ∈ o := by
  induction o with
  | nil => simp [lookupJS] at h
  | cons p t ih =>
    obtain ⟨k, w⟩ := p
    by_cases hk : k = q
    · subst hk
      simp [lookupJS] at h
      simp [h]
    · simp [lookupJS, hk] at h
      exact List.mem_cons_of_mem _ (ih h)

theorem lookupJS_self {K V : Type} [DecidableEq K] {o : Obj K V} {k : K} {v : V}
    (hnd : (keysOf o).Nodup) (h : (k, v) ∈ o) : lookupJS o k = some v := by
  induction o with
  | nil => simp at h
  | cons p t ih =>
    obtain ⟨k1, v1⟩ := p
    rw [keysOf_cons] at hnd
    rcases List.mem_cons.mp h with heq | ht
    · injection heq with h1 h2
      subst h1
      subst h2
      simp [lookupJS]
    · have hk : k1 ≠ k := by
        intro he
        exact (List.nodup_cons.mp hnd).1 (he ▸ mem_keysOf_of_mem ht)
      simp [lookupJS, hk]
      exact ih (List.nodup_cons.mp hnd).2 ht

theorem lookupJS_append_of_some {K V : Type} [DecidableEq K] {a : Obj K V} {q : K} {v : V}
    (b : Obj K V) (h : lookupJS a q = some v) : lookupJS (a ++ b) q = some v := by
  induction a with
  | nil => simp [lookupJS] at h
  | cons p t ih =>
    obtain ⟨k, w⟩ := p
    by_cases hk : k = q
    · subst hk
      simp [lookupJS] at h ⊢
      exact h
    · simp [lookupJS, hk] at h ⊢
      exact ih h

theorem lookupJS_append_of_none {K V : Type} [DecidableEq K] {a : Obj K V} {q : K}
    (b : Obj K V) (h : lookupJS a q = none) : lookupJS (a ++ b) q = lookupJS b q := by
  induction a with
  | nil => simp
  | cons p t ih =>
    obtain ⟨k, w⟩ := p
    by_cases hk : k = q
    · subst hk
      simp [lookupJS] at h
    · simp [lookupJS, hk] at h ⊢
      exact ih h

theorem keysOf_setKey_of_mem {K V : Type} [DecidableEq K] {o : Obj K V} {k : K} (v : V)
    (h : k ∈ keysOf o) : keysOf (setKey o k v) = keysOf o := by
  unfold setKey
  rw [if_pos h]
  unfold keysOf
  rw [List.map_map]
  apply List.map_congr_left
  intro p _
  by_cases hpk : p.1 = k
  · simp [Function.comp, hpk]
  · simp [Function.comp, hpk]

theorem keysOf_setKey_of_not_mem {K V : Type} [DecidableEq K] {o : Obj K V} {k : K} (v : V)
    (h : k ∉ keysOf o) : keysOf (setKey o k v) = keysOf o ++ [k] := by
  unfold setKey
  rw [if_neg h, keysOf_append]
  rfl

theorem mem_keysOf_setKey {K V : Type} [DecidableEq K] {o : Obj K V} {k q : K} {v : V} :
    q ∈ keysOf (setKey o k v) ↔ q ∈ keysOf o ∨ q = k := by
  by_cases h : k ∈ keysOf o
  · rw [keysOf_setKey_of_mem v h]
    constructor
    · exact Or.inl
    · rintro (hq | rfl)
      · exact hq
      · exact h
  · rw [keysOf_setKey_of_not_mem v h]
    simp [List.mem_append]

theorem nodup_keysOf_setKey {K V : Type} [DecidableEq K] {o : Obj K V} {k : K} (v : V)
    (h : (keysOf o).Nodup) : (keysOf (setKey o k v)).Nodup := by
  by_cases hm : k ∈ keysOf o
  · rw [keysOf_setKey_of_mem v hm]
    exact h
  · rw [keysOf_setKey_of_not_mem v hm]
    simp [List.nodup_append, h, hm]

theorem lookupJS_nil {K V : Type} [DecidableEq K] (q : K) :
    lookupJS ([] : Obj K V) q = none := rfl

theorem lookupJS_cons {K V : Type} [DecidableEq K] (k : K) (v : V) (t : Obj K V) (q : K) :
    lookupJS ((k, v) :: t) q = if k = q then some v else lookupJS t q := rfl

theorem lookupJS_overwrite_ne {K V : Type} [DecidableEq K] (o : Obj K V) (k q : K) (v : V)
    (hq : q ≠ k) :
    lookupJS (o.map (fun p => if p.1 = k then (k, v) else p)) q = lookupJS o q := by
  induction o with
  | nil => rfl
  | cons p t ih =>
    obtain ⟨k1, v1⟩ := p
    rw [List.map_cons]
    by_cases h1 : k1 = k
    · rw [if_pos (show ((k1, v1) : K × V).1 = k from h1), lookupJS_cons, lookupJS_cons,
        if_neg (fun he : k = q => hq he.symm),
        if_neg (fun he : k1 = q => hq (he.symm.trans h1))]
      exact ih
    · rw [if_neg (show ¬((k1, v1) : K × V).1 = k from h1), lookupJS_cons, lookupJS_cons]
      by_cases hq1 : k1 = q
      · rw [if_pos hq1, if_pos hq1]
      · rw [if_neg hq1, if_neg hq1]
        exact ih

theorem lookupJS_overwrite_self {K V : Type} [DecidableEq K] (o : Obj K V) (k : K) (v : V)
    (h : k ∈ keysOf o) :
    lookupJS (o.map (fun p => if p.1 = k then (k, v) else p)) k = some v := by
  induction o with
  | nil => simp [keysOf] at h
  | cons p t ih =>
    obtain ⟨k1, v1⟩ := p
    rw [List.map_cons]
    by_cases h1 : k1 = k
    · rw [if_pos (show ((k1, v1) : K × V).1 = k from h1), lookupJS_cons, if_pos rfl]
    · rw [if_neg (show ¬((k1, v1) : K × V).1 = k from h1), lookupJS_cons, if_neg h1]
      apply ih
      rw [keysOf_cons] at h
      rcases List.mem_cons.mp h with he | hm
      · exact absurd he.symm h1
      · exact hm

theorem lookupJS_setKey {K V : Type} [DecidableEq K] (o : Obj K V) (k q : K) (v : V) :
    lookupJS (setKey o k v) q = if q = k then some v else lookupJS o q := by
  unfold setKey
  by_cases h : k ∈ keysOf o
  · rw [if_pos h]
    by_cases hq : q = k
    · subst hq
      rw [if_pos rfl]
      exact lookupJS_overwrite_self o q v h
    · rw [if_neg hq]
      exact lookupJS_overwrite_ne o k q v hq
  · rw [if_neg h]
    by_cases hq : q = k
    · subst hq
      rw [lookupJS_append_of_none _ (lookupJS_eq_none_iff.mpr h)]
      simp [lookupJS]
    · rw [if_neg hq]
      rcases ho : lookupJS o q with _ | w
      · rw [lookupJS_append_of_none _ ho, lookupJS_cons,
          if_neg (fun he : k = q => hq he.symm), lookupJS_nil]
      · exact lookupJS_append_of_some _ ho

/-! Lemmas about the spread operator. -/

theorem spread_nil {K V : Type} [DecidableEq K] (a : Obj K V) : spread a [] = a := rfl

theorem spread_cons {K V : Type} [DecidableEq K] (a : Obj K V) (p : K × V) (b : Obj K V) :
    spread a (p :: b) = spread (setKey a p.1 p.2) b := rfl

theorem mem_keysOf_spread {K V : Type} [DecidableEq K] {a b : Obj K V} {q : K} :
    q ∈ keysOf (spread a b) ↔ q ∈ keysOf a ∨ q ∈ keysOf b := by
  induction b generalizing a with
  | nil => simp [spread_nil, keysOf]
  | cons p t ih =>
    obtain ⟨k, v⟩ := p
    rw [spread_cons, ih, mem_keysOf_setKey, keysOf_cons]
    simp only [List.mem_cons]
    tauto

theorem nodup_keysOf_spread {K V : Type} [DecidableEq K] {a : Obj K V} (b : Obj K V)
    (ha : (keysOf a).Nodup) : (keysOf (spread a b)).Nodup := by
  induction b generalizing a with
  | nil => exact ha
  | cons p t ih =>
    rw [spread_cons]
    exact ih (nodup_keysOf_setKey p.2 ha)

theorem keysOf_spread_of_sub {K V : Type} [DecidableEq K] {a b : Obj K V}
    (h : ∀ q ∈ keysOf b, q ∈ keysOf a) : keysOf (spread a b) = keysOf a := by
  induction b generalizing a with
  | nil => rfl
  | cons p t ih =>
    obtain ⟨k, v⟩ := p
    rw [spread_cons]
    have hk : k ∈ keysOf a := h k (by simp [keysOf_cons])
    rw [ih, keysOf_setKey_of_mem v hk]
    intro q hq
    rw [keysOf_setKey_of_mem v hk]
    exact h q (by simp [keysOf_cons, hq])

theorem lookupJS_spread {K V : Type} [DecidableEq K] {b : Obj K V} (a : Obj K V) (q : K)
    (hb : (keysOf b).Nodup) :
    lookupJS (spread a b) q = if q ∈ keysOf b then lookupJS b q else lookupJS a q := by
  induction b generalizing a with
  | nil => simp [spread_nil, keysOf, lookupJS_nil]
  | cons p t ih =>
    obtain ⟨k1, v1⟩ := p
    rw [keysOf_cons] at hb ⊢
    obtain ⟨hk1, ht⟩ := List.nodup_cons.mp hb
    rw [spread_cons, ih _ ht]
    by_cases hq : q ∈ keysOf t
    · have hqk : q ≠ k1 := fun he => hk1 (he ▸ hq)
      rw [if_pos hq, if_pos (List.mem_cons.mpr (Or.inr hq)), lookupJS_cons,
        if_neg (fun he : k1 = q => hqk he.symm)]
    · rw [if_neg hq]
      by_cases hqk : q = k1
      · subst hqk
        rw [lookupJS_setKey, if_pos rfl, if_pos (List.mem_cons.mpr (Or.inl rfl)),
          lookupJS_cons, if_pos rfl]
      · rw [lookupJS_setKey, if_neg hqk,
          if_neg (by rw [List.mem_cons]; rintro (he | hm); exact hqk he; exact hq hm)]

/-! Lemmas about folded assignments over a key list. -/

theorem mem_keysOf_foldlSet {K V : Type} [DecidableEq K] (g : K → V) {q : K} :
    ∀ (ks : List K) (acc : Obj K V),
      q ∈ keysOf (ks.foldl (fun a k => setKey a k (g k)) acc) ↔ q ∈ keysOf acc ∨ q ∈ ks := by
  intro ks
  induction ks with
  | nil => simp
  | cons k t ih =>
    intro acc
    rw [List.foldl_cons, ih, mem_keysOf_setKey]
    simp only [List.mem_cons]
    tauto

theorem nodup_keysOf_foldlSet {K V : Type} [DecidableEq K] (g : K → V) :
    ∀ (ks : List K) (acc : Obj K V), (keysOf acc).Nodup →
      (keysOf (ks.foldl (fun a k => setKey a k (g k)) acc)).Nodup := by
  intro ks
  induction ks with
  | nil => exact fun acc h => h
  | cons k t ih =>
    intro acc hacc
    rw [List.foldl_cons]
    exact ih _ (nodup_keysOf_setKey _ hacc)

theorem lookupJS_foldlSet {K V : Type} [DecidableEq K] (g : K → V) {q : K} :
    ∀ (ks : List K) (acc : Obj K V), ks.Nodup →
      lookupJS (ks.foldl (fun a k => setKey a k (g k)) acc) q
        = if q ∈ ks then some (g q) else lookupJS acc q := by
  intro ks
  induction ks with
  | nil => simp
  | cons k t ih =>
    intro acc hnd
    obtain ⟨hk, ht⟩ := List.nodup_cons.mp hnd
    rw [List.foldl_cons, ih _ ht]
    by_cases hq : q ∈ t
    · rw [if_pos hq, if_pos (List.mem_cons.mpr (Or.inr hq))]
    · rw [if_neg hq, lookupJS_setKey]
      by_cases hqk : q = k
      · subst hqk
        rw [if_pos rfl, if_pos (List.mem_cons.mpr (Or.inl rfl))]
      · rw [if_neg hqk,
          if_neg (by rw [List.mem_cons]; rintro (he | hm); exact hqk he; exact hq hm)]

theorem foldlSet_eq_map {K V : Type} [DecidableEq K] (g : K → V) :
    ∀ (ks : List K) (acc : Obj K V), (∀ k ∈ ks, k ∈ keysOf acc) →
      ks.foldl (fun a k => setKey a k (g k)) acc
        = acc.map (fun p => if p.1 ∈ ks then (p.1, g p.1) else p) := by
  intro ks
  induction ks with
  | nil =>
    intro acc _
    rw [show (acc.map fun p => if p.1 ∈ ([] : List K) then (p.1, g p.1) else p)
        = acc.map id from List.map_congr_left (fun p _ => by simp)]
    simp
  | cons k t ih =>
    intro acc hsub
    have hk : k ∈ keysOf acc := hsub k (List.mem_cons.mpr (Or.inl rfl))
    rw [List.foldl_cons, ih _ (fun k2 hk2 =>
      mem_keysOf_setKey.mpr (Or.inl (hsub k2 (List.mem_cons.mpr (Or.inr hk2)))))]
    unfold setKey
    rw [if_pos hk, List.map_map]
    apply List.map_congr_left
    intro p _
    by_cases hpk : p.1 = k
    · simp only [Function.comp_apply, if_pos hpk, ite_self]
      rw [if_pos (show p.1 ∈ k :: t from List.mem_cons.mpr (Or.inl hpk)), hpk]
    · simp only [Function.comp_apply, if_neg hpk]
      by_cases hpt : p.1 ∈ t
      · rw [if_pos hpt, if_pos (List.mem_cons.mpr (Or.inr hpt))]
      · rw [if_neg hpt,
          if_neg (by rw [List.mem_cons]; rintro (he | hm); exact hpk he; exact hpt hm)]

/-! Corollaries for buildFrom. -/

theorem mem_keysOf_buildFrom {K V : Type} [DecidableEq K] (ks : List K) (g : K → V) (q : K) :
    q ∈ keysOf (buildFrom ks g) ↔ q ∈ ks := by
  unfold buildFrom
  rw [mem_keysOf_foldlSet]
  simp [keysOf]

theorem nodup_keysOf_buildFrom {K V : Type} [DecidableEq K] (ks : List K) (g : K → V) :
    (keysOf (buildFrom ks g)).Nodup :=
  nodup_keysOf_foldlSet g ks [] (by simp [keysOf])

theorem lookupJS_buildFrom {K V : Type} [DecidableEq K] {ks : List K} (g : K → V) (q : K)
    (hnd : ks.Nodup) :
    lookupJS (buildFrom ks g) q = if q ∈ ks then some (g q) else none := by
  unfold buildFrom
  rw [lookupJS_foldlSet g ks [] hnd, lookupJS_nil]

/-! Extensionality for objects with distinct keys. -/

theorem objExt {K V : Type} [DecidableEq K] :
    ∀ {a b : Obj K V}, keysOf a = keysOf b → (keysOf a).Nodup →
      (∀ q, lookupJS a q = lookupJS b q) → a = b := by
  intro a
  induction a with
  | nil =>
    intro b hk _ _
    rcases b with _ | ⟨p, t⟩
    · rfl
    · simp [keysOf] at hk
  | cons p t ih =>
    intro b hk hnd hl
    obtain ⟨k, v⟩ := p
    rcases b with _ | ⟨⟨k2, v2⟩, t2⟩
    · simp [keysOf] at hk
    · rw [keysOf_cons, keysOf_cons] at hk
      injection hk with hk1 hk2
      subst hk1
      have hv : v = v2 := by
        have := hl k
        rw [lookupJS_cons, lookupJS_cons, if_pos rfl, if_pos rfl] at this
        injection this
      subst hv
      rw [keysOf_cons] at hnd
      obtain ⟨hknot, hndt⟩ := List.nodup_cons.mp hnd
      have ht : t = t2 := by
        apply ih hk2 hndt
        intro q
        by_cases hq : q ∈ keysOf t
        · have hqk : ¬k = q := fun he => hknot (he ▸ hq)
          have := hl q
          rw [lookupJS_cons, lookupJS_cons, if_neg hqk, if_neg hqk] at this
          exact this
        · have hq2 : q ∉ keysOf t2 := hk2 ▸ hq
          rw [lookupJS_eq_none_iff.mpr hq, lookupJS_eq_none_iff.mpr hq2]
      rw [ht]

/-! Lemmas about the config merger. -/

theorem mergeConfig_none {V : Type} (c1 : Obj String (Obj String V)) :
    mergeConfig c1 none = c1 := rfl

theorem mergeConfig_some {V : Type} (c1 c2 : Obj String (Obj String V)) :
    mergeConfig c1 (some c2)
      = spread (spread c1 c2)
          (buildFrom (keysOf c1) (fun k => spread (getOr c1 k []) (getOr c2 k []))) := rfl

theorem mem_keysOf_mergeConfig {V : Type} {c1 c2 : Obj String (Obj String V)} {q : String} :
    q ∈ keysOf (mergeConfig c1 (some c2)) ↔ q ∈ keysOf c1 ∨ q ∈ keysOf c2 := by
  unfold mergeConfig
  rw [mem_keysOf_spread, mem_keysOf_spread, mem_keysOf_buildFrom]
  tauto

theorem lookupJS_mergeConfig {V : Type} {c1 c2 : Obj String (Obj String V)} (q : String)
    (h1 : (keysOf c1).Nodup) (h2 : (keysOf c2).Nodup) :
    lookupJS (mergeConfig c1 (some c2)) q =
      if q ∈ keysOf c1 then some (spread (getOr c1 q []) (getOr c2 q []))
      else if q ∈ keysOf c2 then lookupJS c2 q else none := by
  unfold mergeConfig
  rw [lookupJS_spread _ _ (nodup_keysOf_buildFrom _ _)]
  by_cases hq : q ∈ keysOf c1
  · rw [if_pos ((mem_keysOf_buildFrom _ _ _).mpr hq), if_pos hq,
      lookupJS_buildFrom _ _ h1, if_pos hq]
  · rw [if_neg (fun hm => hq ((mem_keysOf_buildFrom _ _ _).mp hm)), if_neg hq,
      lookupJS_spread _ _ h2]
    by_cases hq2 : q ∈ keysOf c2
    · rw [if_pos hq2, if_pos hq2]
    · rw [if_neg hq2, if_neg hq2, lookupJS_eq_none_iff.mpr hq]

theorem spread_spread_self {K V : Type} [DecidableEq K] (x y : Obj K V)
    (hx : (keysOf x).Nodup) (hy : (keysOf y).Nodup) :
    spread (spread x y) y = spread x y := by
  apply objExt
  · exact keysOf_spread_of_sub (fun q hq => mem_keysOf_spread.mpr (Or.inr hq))
  · exact nodup_keysOf_spread _ (nodup_keysOf_spread _ hx)
  · intro q
    rw [lookupJS_spread _ _ hy, lookupJS_spread _ _ hy]
    by_cases hq : q ∈ keysOf y
    · rw [if_pos hq, if_pos hq]
    · rw [if_neg hq, if_neg hq]

theorem spread_self {K V : Type} [DecidableEq K] (x : Obj K V)
    (hx : (keysOf x).Nodup) : spread x x = x := by
  apply objExt
  · exact keysOf_spread_of_sub (fun q hq => hq)
  · exact nodup_keysOf_spread _ hx
  · intro q
    rw [lookupJS_spread _ _ hx]
    by_cases hq : q ∈ keysOf x
    · rw [if_pos hq]
    · rw [if_neg hq]

theorem nodup_keysOf_mergeConfig {V : Type} {c1 : Obj String (Obj String V)}
    (c2 : Obj String (Obj String V)) (h1 : (keysOf c1).Nodup) :
    (keysOf (mergeConfig c1 (some c2))).Nodup := by
  unfold mergeConfig
  exact nodup_keysOf_spread _ (nodup_keysOf_spread _ h1)

theorem getOr_eq_of_lookup {K V : Type} [DecidableEq K] {o : Obj K V} {k : K} {v d : V}
    (h : lookupJS o k = some v) : getOr o k d = v := by
  unfold getOr
  rw [h]
  rfl

theorem mergeConfig_idem {V : Type} (c1 c2 : Obj String (Obj String V))
    (h1 : WFCat c1) (h2 : WFCat c2) :
    mergeConfig (mergeConfig c1 (some c2)) (some c2) = mergeConfig c1 (some c2) := by
  have hA : (keysOf (mergeConfig c1 (some c2))).Nodup := nodup_keysOf_mergeConfig c2 h1.1
  apply objExt
  · rw [mergeConfig_some]
    calc keysOf (spread (spread (mergeConfig c1 (some c2)) c2)
            (buildFrom (keysOf (mergeConfig c1 (some c2)))
              (fun k => spread (getOr (mergeConfig c1 (some c2)) k []) (getOr c2 k []))))
        = keysOf (spread (mergeConfig c1 (some c2)) c2) := by
          apply keysOf_spread_of_sub
          intro q hq
          rw [mem_keysOf_buildFrom] at hq
          exact mem_keysOf_spread.mpr (Or.inl hq)
      _ = keysOf (mergeConfig c1 (some c2)) := by
          apply keysOf_spread_of_sub
          intro q hq
          exact mem_keysOf_mergeConfig.mpr (Or.inr hq)
  · exact nodup_keysOf_mergeConfig c2 hA
  · intro q
    rw [lookupJS_mergeConfig q hA h2.1, lookupJS_mergeConfig q h1.1 h2.1]
    by_cases hq1 : q ∈ keysOf c1
    · rw [if_pos (mem_keysOf_mergeConfig.mpr (Or.inl hq1)), if_pos hq1]
      rcases hx : lookupJS c1 q with _ | xc
      · exact absurd hq1 (lookupJS_eq_none_iff.mp hx)
      · have hxnd : (keysOf xc).Nodup := h1.2 _ (lookupJS_some_mem hx)
        have hy : (keysOf (getOr c2 q [])).Nodup := by
          rcases hyy : lookupJS c2 q with _ | yc
          · unfold getOr
            rw [hyy]
            simp [keysOf]
          · rw [getOr_eq_of_lookup hyy]
            exact h2.2 _ (lookupJS_some_mem hyy)
        have hval : getOr (mergeConfig c1 (some c2)) q []
            = spread (getOr c1 q []) (getOr c2 q []) := by
          apply getOr_eq_of_lookup
          rw [lookupJS_mergeConfig q h1.1 h2.1, if_pos hq1]
        rw [hval, getOr_eq_of_lookup hx, spread_spread_self _ _ hxnd hy]
    · by_cases hq2 : q ∈ keysOf c2
      · rw [if_pos (mem_keysOf_mergeConfig.mpr (Or.inr hq2)), if_neg hq1, if_pos hq2]
        rcases hyy : lookupJS c2 q with _ | yc
        · exact absurd hq2 (lookupJS_eq_none_iff.mp hyy)
        · have hynd : (keysOf yc).Nodup := h2.2 _ (lookupJS_some_mem hyy)
          have hval : getOr (mergeConfig c1 (some c2)) q [] = yc := by
            apply getOr_eq_of_lookup
            rw [lookupJS_mergeConfig q h1.1 h2.1, if_neg hq1, if_pos hq2, hyy]
          rw [hval, getOr_eq_of_lookup hyy, spread_self _ hynd]
      · rw [if_neg (fun hm => by
            rcases mem_keysOf_mergeConfig.mp hm with h | h
            exacts [hq1 h, hq2 h]),
          if_neg hq1, if_neg hq2]

theorem keysOf_mapVal {K V W : Type} (d : Obj K V) (F : K → V → W) :
    keysOf (d.map (fun p => (p.1, F p.1 p.2))) = keysOf d := by
  unfold keysOf
  rw [List.map_map]
  exact List.map_congr_left (fun p _ => rfl)

theorem lookupJS_mapVal {K V W : Type} [DecidableEq K] (F : K → V → W) :
    ∀ (d : Obj K V) (q : K),
      lookupJS (d.map (fun p => (p.1, F p.1 p.2))) q = Option.map (F q) (lookupJS d q) := by
  intro d
  induction d with
  | nil => intro q; rfl
  | cons p t ih =>
    intro q
    obtain ⟨k, v⟩ := p
    rw [List.map_cons]
    by_cases hk : k = q
    · subst hk
      rw [lookupJS_cons, lookupJS_cons, if_pos rfl, if_pos rfl]
      rfl
    · rw [lookupJS_cons, lookupJS_cons, if_neg hk, if_neg hk]
      exact ih q

theorem mergeConfigs_some (d o : Config) :
    mergeConfigs d (some o)
      = (keysOf d).foldl
          (fun all k => setKey all k (mergeConfig (getOr d k []) (lookupJS o k))) d := rfl

theorem mergeConfigs_eq_map (d o : Config) (hd : (keysOf d).Nodup) :
    mergeConfigs d (some o)
      = d.map (fun p => (p.1, mergeConfig p.2 (lookupJS o p.1))) := by
  rw [mergeConfigs_some]
  rw [foldlSet_eq_map (fun k => mergeConfig (getOr d k []) (lookupJS o k)) (keysOf d) d
    (fun k hk => hk)]
  apply List.map_congr_left
  intro p hp
  rw [if_pos (mem_keysOf_of_mem hp)]
  rw [getOr_eq_of_lookup (lookupJS_self hd (show (p.1, p.2) ∈ d from hp))]

theorem mem_keysOf_of_lookup_some {K V : Type} [DecidableEq K] {o : Obj K V} {k : K} {v : V}
    (h : lookupJS o k = some v) : k ∈ keysOf o := by
  by_contra hn
  rw [lookupJS_eq_none_iff.mpr hn] at h
  exact Option.noConfusion h

/-- Claim C5 (confirmed): merging a default configuration with an absent
override returns the default configuration itself unchanged, because
mergeConfigs returns its first argument without building a new object. -/
theorem c5_merge_absent_override (d : Config) : mergeConfigs d none = d := rfl

/-- Claim C6 (confirmed): the config merge is idempotent.  Merging the
already merged configuration with the same overrides again yields a
structurally equal configuration, for well-formed inputs (a JavaScript
object never repeats a key). -/
theorem c6_merge_idempotent (d o : Config) (hd : WFConfig d) (ho : WFConfig o) :
    mergeConfigs (mergeConfigs d (some o)) (some o) = mergeConfigs d (some o) := by
  have hM := mergeConfigs_eq_map d o hd.1
  have hkeys : keysOf (mergeConfigs d (some o)) = keysOf d := by
    rw [hM]
    exact keysOf_mapVal d (fun k c => mergeConfig c (lookupJS o k))
  have hnd : (keysOf (mergeConfigs d (some o))).Nodup := by
    rw [hkeys]
    exact hd.1
  rw [mergeConfigs_eq_map _ o hnd, hM, List.map_map]
  apply List.map_congr_left
  intro p hp
  simp only [Function.comp_apply]
  rcases hlo : lookupJS o p.1 with _ | c2
  · rfl
  · have hc1 : WFCat p.2 := hd.2 p hp
    have hc2 : WFCat c2 := ho.2 _ (lookupJS_some_mem hlo)
    rw [mergeConfig_idem p.2 c2 hc1 hc2]

/-- Witness for c6_merge_idempotent: the shipped default formats and a
concrete override configuration satisfy the hypotheses, and the merge is
idempotent there. -/
theorem c6_merge_idempotent_witness :
    WFConfig IntlMessageFormat.formats ∧ WFConfig sampleOverride ∧
      mergeConfigs (mergeConfigs IntlMessageFormat.formats (some sampleOverride))
          (some sampleOverride)
        = mergeConfigs IntlMessageFormat.formats (some sampleOverride) :=
  ⟨by decide, by decide,
    c6_merge_idempotent IntlMessageFormat.formats sampleOverride (by decide) (by decide)⟩

/-- Claim C1 (refuted as stated): the claim says a preset name present
only in the overrides does not appear in the merged configuration, but
merging the default formats with sampleOverride puts the preset named
scientific, absent from the defaults, into the number category of the
result, because mergeConfig spreads the whole override category into the
merged object. -/
theorem c1_counterexample :
    "scientific" ∈ keysOf (getOr
        (mergeConfigs IntlMessageFormat.formats (some sampleOverride)) "number" [])
      ∧ "scientific" ∉ keysOf (getOr IntlMessageFormat.formats "number" []) := by
  decide

/-- Claim C1 (amended): the merged configuration has exactly the
top-level categories of the defaults, each mapped to the mergeConfig of
the default category with the same-named override category; within a
category the preset names are those of the default category together
with those of the override category, and a preset present only in the
overrides appears with the override options record. -/
theorem c1_amended (d o : Config) (hd : WFConfig d) (ho : WFConfig o) :
    keysOf (mergeConfigs d (some o)) = keysOf d ∧
    (∀ k, lookupJS (mergeConfigs d (some o)) k
        = Option.map (fun cd => mergeConfig cd (lookupJS o k)) (lookupJS d k)) ∧
    (∀ k cd, lookupJS d k = some cd →
      (∀ p, p ∈ keysOf (mergeConfig cd (lookupJS o k))
          ↔ p ∈ keysOf cd ∨ p ∈ keysOf ((lookupJS o k).getD [])) ∧
      (∀ p pv, p ∉ keysOf cd → lookupJS ((lookupJS o k).getD []) p = some pv →
        lookupJS (mergeConfig cd (lookupJS o k)) p = some pv)) := by
  refine ⟨?_, ?_, ?_⟩
  · rw [mergeConfigs_eq_map d o hd.1]
    exact keysOf_mapVal d (fun k c => mergeConfig c (lookupJS o k))
  · intro k
    rw [mergeConfigs_eq_map d o hd.1]
    exact lookupJS_mapVal (fun k c => mergeConfig c (lookupJS o k)) d k
  · intro k cd hcd
    rcases hlo : lookupJS o k with _ | c2
    · constructor
      · intro p
        rw [mergeConfig_none]
        simp [keysOf, lookupJS]
      · intro p pv _ hlp
        exact absurd (show (none : Option Preset) = some pv from hlp) (by simp)
    · have hcdnd : (keysOf cd).Nodup := (hd.2 _ (lookupJS_some_mem hcd)).1
      have hc2 : WFCat c2 := ho.2 _ (lookupJS_some_mem hlo)
      constructor
      · intro p
        exact mem_keysOf_mergeConfig
      · intro p pv hpd hpv
        rw [lookupJS_mergeConfig p hcdnd hc2.1, if_neg hpd,
          if_pos (mem_keysOf_of_lookup_some
            (show lookupJS c2 p = some pv from hpv))]
        exact hpv

/-- Witness for c1_amended: the shipped default formats and the concrete
override configuration satisfy the hypotheses, and merging preserves the
top-level category list there. -/
theorem c1_amended_witness :
    WFConfig IntlMessageFormat.formats ∧ WFConfig sampleOverride ∧
      keysOf (mergeConfigs IntlMessageFormat.formats (some sampleOverride))
        = keysOf IntlMessageFormat.formats :=
  ⟨by decide, by decide,
    (c1_amended IntlMessageFormat.formats sampleOverride (by decide) (by decide)).1⟩

/-- Claim C7 (refuted as stated): constructing a facade without override
formats captures the shared static formats object itself (mergeConfigs
returns its first argument), so mutating that shared object in place
afterwards does change the effective merged configuration observed by
the existing facade. -/
theorem c7_counterexample :
    RefModel.effectiveFormats
        (RefModel.mutateStaticInPlace
          (RefModel.constructRef ⟨[(0, IntlMessageFormat.formats)], 1, 0⟩ none).2
          (fun c => setKey c "number" []))
        (RefModel.constructRef ⟨[(0, IntlMessageFormat.formats)], 1, 0⟩ none).1
      ≠ RefModel.effectiveFormats
          (RefModel.constructRef ⟨[(0, IntlMessageFormat.formats)], 1, 0⟩ none).2
          (RefModel.constructRef ⟨[(0, IntlMessageFormat.formats)], 1, 0⟩ none).1 := by
  decide

/-- Claim C7 (amended): reassigning the static default configuration
reference after construction never changes the effective merged
configuration of an existing facade; but a facade constructed without
override formats captures the static configuration object itself, so
in-place mutation of that shared object is observed by the facade. -/
theorem c7_amended (s : RefModel.GState) (hwf : RefModel.WFState s)
    (ov : Option Config) (c : Config) :
    (ov = none → (RefModel.constructRef s ov).1 = s.staticFormats) ∧
    RefModel.effectiveFormats
        (RefModel.reassignStatic (RefModel.constructRef s ov).2 c)
        (RefModel.constructRef s ov).1
      = RefModel.effectiveFormats (RefModel.constructRef s ov).2
          (RefModel.constructRef s ov).1 := by
  have key : ∀ (s1 : RefModel.GState) (r : Nat), r < s1.next →
      RefModel.effectiveFormats (RefModel.reassignStatic s1 c) r
        = RefModel.effectiveFormats s1 r := by
    intro s1 r hr
    unfold RefModel.effectiveFormats RefModel.reassignStatic RefModel.heapGet getOr
    rw [lookupJS_setKey, if_neg (Nat.ne_of_lt hr)]
  rcases ov with _ | o
  · exact ⟨fun _ => rfl, key s s.staticFormats hwf.1⟩
  · exact ⟨fun h => Option.noConfusion h, key _ s.next (Nat.lt_succ_self _)⟩

/-- Witness for c7_amended: a well-formed initial state holding the
shipped default formats, constructed without overrides; reassigning the
static reference leaves the facade unaffected. -/
theorem c7_amended_witness :
    RefModel.WFState ⟨[(0, IntlMessageFormat.formats)], 1, 0⟩ ∧
      (RefModel.constructRef ⟨[(0, IntlMessageFormat.formats)], 1, 0⟩ none).1 = 0 ∧
      RefModel.effectiveFormats
          (RefModel.reassignStatic
            (RefModel.constructRef ⟨[(0, IntlMessageFormat.formats)], 1, 0⟩ none).2 [])
          (RefModel.constructRef ⟨[(0, IntlMessageFormat.formats)], 1, 0⟩ none).1
        = RefModel.effectiveFormats
            (RefModel.constructRef ⟨[(0, IntlMessageFormat.formats)], 1, 0⟩ none).2
            (RefModel.constructRef ⟨[(0, IntlMessageFormat.formats)], 1, 0⟩ none).1 :=
  ⟨by decide,
    (c7_amended ⟨[(0, IntlMessageFormat.formats)], 1, 0⟩ (by decide) none []).1 rfl,
    (c7_amended ⟨[(0, IntlMessageFormat.formats)], 1, 0⟩ (by decide) none []).2⟩

/-- Claim C2 (refuted as stated): the constructor accepts an empty
pre-parsed node sequence -- construction from an empty ast succeeds,
because the source only checks that the ast is an array, not that it is
non-empty or structurally valid. -/
theorem c2_counterexample :
    (IntlMessageFormat.construct (some (fun _ _ => ([] : List Unit)))
        (CtorInput.arr ([] : List Unit)) (Sum.inl "en")
        IntlMessageFormat.formats none none).isOk = true := rfl

/-- Claim C2 (amended): the constructor accepts a string message exactly
when the parse reference is set, accepts every pre-parsed node sequence
including the empty one, and fails with a TypeError only when the input
is neither a string nor an array. -/
theorem c2_amended {El : Type} (parseRef : Option (String → Option Bool → List El))
    (locales : Locales) (sf : Config) (ovf : Option Config) (tag : Option Bool) :
    (∀ s, (IntlMessageFormat.construct parseRef (CtorInput.str s)
        locales sf ovf tag).isOk = parseRef.isSome) ∧
    (∀ nodes, (IntlMessageFormat.construct parseRef (CtorInput.arr nodes)
        locales sf ovf tag).isOk = true) ∧
    ((IntlMessageFormat.construct parseRef (CtorInput.other)
        locales sf ovf tag).isOk = false) := by
  refine ⟨?_, fun nodes => rfl, rfl⟩
  intro s
  cases parseRef <;> rfl

/-- Claim C9 (confirmed): with the static parse reference unset, a string
message makes the constructor fail with a TypeError and no facade object
is produced; a pre-parsed node sequence never consults the parse
reference -- the result is the same for every value of the reference. -/
theorem c9_parser_dependency {El : Type} :
    (∀ (s : String) (locales : Locales) (sf : Config) (ovf : Option Config)
        (tag : Option Bool),
      IntlMessageFormat.construct (none : Option (String → Option Bool → List El))
          (CtorInput.str s) locales sf ovf tag
        = Except.error CtorError.parserUnset) ∧
    (∀ (p1 p2 : Option (String → Option Bool → List El)) (nodes : List El)
        (locales : Locales) (sf : Config) (ovf : Option Config) (tag : Option Bool),
      IntlMessageFormat.construct p1 (CtorInput.arr nodes) locales sf ovf tag
        = IntlMessageFormat.construct p2 (CtorInput.arr nodes) locales sf ovf tag) :=
  ⟨fun _ _ _ _ _ => rfl, fun _ _ _ _ _ _ _ => rfl⟩

/-- Claim C8 (confirmed): for every successfully constructed facade,
resolvedOptions reports as its locale the first element of the list that
the external locale-negotiation primitive returns on the locale argument
stored by the constructor. -/
theorem c8_resolved_locale {El : Type} (slo : Locales → List String)
    (parseRef : Option (String → Option Bool → List El)) (m : CtorInput El)
    (locales : Locales) (sf : Config) (ovf : Option Config) (tag : Option Bool)
    (inst : MFInstance El)
    (h : IntlMessageFormat.construct parseRef m locales sf ovf tag = Except.ok inst) :
    IntlMessageFormat.resolvedOptions slo inst = ⟨(slo locales).head?⟩ := by
  have hloc : inst.locales = locales := by
    cases m with
    | str s =>
      cases parseRef with
      | none => exact Except.noConfusion h
      | some p =>
        injection h with h2
        rw [← h2]
    | arr nodes =>
      injection h with h2
      rw [← h2]
    | other => exact Except.noConfusion h
  unfold IntlMessageFormat.resolvedOptions
  rw [hloc]

/-- Witness for c8_resolved_locale: a concrete facade constructed from an
empty ast under the locale tag en, with a negotiation primitive that
returns the tag itself. -/
theorem c8_resolved_locale_witness :
    IntlMessageFormat.construct (none : Option (String → Option Bool → List Unit))
        (CtorInput.arr []) (Sum.inl "en") IntlMessageFormat.formats none none
      = Except.ok ⟨[], none, mergeConfigs IntlMessageFormat.formats none, Sum.inl "en"⟩ ∧
    IntlMessageFormat.resolvedOptions
        (fun l => match l with | Sum.inl s => [s] | Sum.inr ls => ls)
        (⟨[], none, mergeConfigs IntlMessageFormat.formats none,
          Sum.inl "en"⟩ : MFInstance Unit)
      = ⟨some "en"⟩ :=
  ⟨rfl,
    c8_resolved_locale
      (fun l => match l with | Sum.inl s => [s] | Sum.inr ls => ls)
      (none : Option (String → Option Bool → List Unit))
      (CtorInput.arr []) (Sum.inl "en") IntlMessageFormat.formats none none
      ⟨[], none, mergeConfigs IntlMessageFormat.formats none, Sum.inl "en"⟩ rfl⟩

/-! Lemmas about the coalescing reduce of format. -/

theorem coalesceStep_object {T : Type} (all : List (String ⊕ T)) (v : T) :
    coalesceStep all (.object v) = all ++ [Sum.inr v] := rfl

theorem coalesceStep_literal_merge {T : Type} (all : List (String ⊕ T)) (t s : String)
    (h : all.getLast? = some (Sum.inl t)) :
    coalesceStep all (.literal s) = all.dropLast ++ [Sum.inl (t ++ s)] := by
  unfold coalesceStep
  rw [h]

theorem coalesceStep_literal_push_none {T : Type} (all : List (String ⊕ T)) (s : String)
    (h : all.getLast? = none) :
    coalesceStep all (.literal s) = all ++ [Sum.inl s] := by
  unfold coalesceStep
  rw [h]

theorem coalesceStep_literal_push_obj {T : Type} (all : List (String ⊕ T)) (s : String)
    (v : T) (h : all.getLast? = some (Sum.inr v)) :
    coalesceStep all (.literal s) = all ++ [Sum.inl s] := by
  unfold coalesceStep
  rw [h]

theorem coalesceStep_ne_nil {T : Type} (all : List (String ⊕ T))
    (p : MessageFormatPart T) : coalesceStep all p ≠ [] := by
  cases p with
  | object v =>
    rw [coalesceStep_object]
    simp
  | literal s =>
    rcases hl : all.getLast? with _ | x
    · rw [coalesceStep_literal_push_none _ _ hl]
      simp
    · cases x with
      | inl t =>
        rw [coalesceStep_literal_merge _ _ _ hl]
        simp
      | inr v =>
        rw [coalesceStep_literal_push_obj _ _ _ hl]
        simp

theorem foldl_coalesceStep_ne_nil {T : Type} :
    ∀ (parts : List (MessageFormatPart T)) (acc : List (String ⊕ T)), acc ≠ [] →
      parts.foldl coalesceStep acc ≠ [] := by
  intro parts
  induction parts with
  | nil => exact fun acc h => h
  | cons p t ih =>
    intro acc _
    rw [List.foldl_cons]
    exact ih _ (coalesceStep_ne_nil acc p)

theorem noadj_step {T : Type} (acc : List (String ⊕ T)) (p : MessageFormatPart T)
    (h : NoAdjacentStrings acc) : NoAdjacentStrings (coalesceStep acc p) := by
  unfold NoAdjacentStrings at h ⊢
  cases p with
  | object v =>
    rw [coalesceStep_object, List.chain'_append]
    refine ⟨h, List.chain'_singleton _, ?_⟩
    intro x _ y hy
    simp at hy
    subst hy
    exact Or.inr rfl
  | literal s =>
    rcases hl : acc.getLast? with _ | x
    · rw [coalesceStep_literal_push_none _ _ hl,
        List.getLast?_eq_none_iff.mp hl]
      exact List.chain'_singleton _
    · cases x with
      | inr v =>
        rw [coalesceStep_literal_push_obj _ _ _ hl, List.chain'_append]
        refine ⟨h, List.chain'_singleton _, ?_⟩
        intro x hx y hy
        simp at hy
        subst hy
        rw [hl] at hx
        simp at hx
        subst hx
        exact Or.inl rfl
      | inl t =>
        have hdec := List.dropLast_append_getLast? _ hl
        rw [coalesceStep_literal_merge _ _ _ hl]
        rw [← hdec, List.chain'_append] at h
        obtain ⟨h1, _, h3⟩ := h
        rw [List.chain'_append]
        refine ⟨h1, List.chain'_singleton _, ?_⟩
        intro x hx y hy
        simp at hy
        subst hy
        rcases h3 x hx (Sum.inl t) (by simp) with hxf | hf
        · exact Or.inl hxf
        · simp [elemIsString] at hf

theorem noadj_coalesce {T : Type} (parts : List (MessageFormatPart T)) :
    NoAdjacentStrings (coalesce parts) := by
  have hgen : ∀ acc, NoAdjacentStrings acc →
      NoAdjacentStrings (parts.foldl coalesceStep acc) := by
    induction parts with
    | nil => exact fun acc h => h
    | cons p t ih =>
      intro acc h
      rw [List.foldl_cons]
      exact ih _ (noadj_step acc p h)
  exact hgen [] List.chain'_nil

theorem objs_step {T : Type} (acc : List (String ⊕ T)) (p : MessageFormatPart T) :
    (coalesceStep acc p).filterMap objElem
      = acc.filterMap objElem ++ (objOfPart p).toList := by
  cases p with
  | object v =>
    rw [coalesceStep_object, List.filterMap_append]
    rfl
  | literal s =>
    rcases hl : acc.getLast? with _ | x
    · rw [coalesceStep_literal_push_none _ _ hl, List.filterMap_append]
      rfl
    · cases x with
      | inr v =>
        rw [coalesceStep_literal_push_obj _ _ _ hl, List.filterMap_append]
        rfl
      | inl t =>
        have hdec := List.dropLast_append_getLast? _ hl
        rw [coalesceStep_literal_merge _ _ _ hl]
        conv_rhs => rw [← hdec]
        rw [List.filterMap_append, List.filterMap_append]
        simp [objElem, objOfPart]

theorem objs_coalesce {T : Type} (parts : List (MessageFormatPart T)) :
    (coalesce parts).filterMap objElem = parts.filterMap objOfPart := by
  have hgen : ∀ acc, (parts.foldl coalesceStep acc).filterMap objElem
      = acc.filterMap objElem ++ parts.filterMap objOfPart := by
    induction parts with
    | nil =>
      intro acc
      simp
    | cons p t ih =>
      intro acc
      rw [List.foldl_cons, ih, objs_step]
      rcases hop : objOfPart p with _ | v
      · simp [List.filterMap_cons, hop]
      · simp [List.filterMap_cons, hop]
  have := hgen []
  simpa using this

theorem textOf_append {T : Type} (a b : List (String ⊕ T)) :
    textOf (a ++ b) = textOf a ++ textOf b := by
  induction a with
  | nil =>
    rw [List.nil_append, show textOf ([] : List (String ⊕ T)) = "" from rfl,
      String.empty_append]
  | cons x t ih =>
    cases x with
    | inl s =>
      rw [List.cons_append, show textOf (Sum.inl s :: (t ++ b)) = s ++ textOf (t ++ b)
          from rfl,
        show textOf (Sum.inl s :: t) = s ++ textOf t from rfl, ih, String.append_assoc]
    | inr v =>
      rw [List.cons_append, show textOf (Sum.inr v :: (t ++ b)) = textOf (t ++ b) from rfl,
        show textOf (Sum.inr v :: t) = textOf t from rfl, ih]

theorem textOf_step {T : Type} (acc : List (String ⊕ T)) (p : MessageFormatPart T) :
    textOf (coalesceStep acc p) = textOf acc ++ litText [p] := by
  cases p with
  | object v =>
    rw [coalesceStep_object, textOf_append]
    rfl
  | literal s =>
    rcases hl : acc.getLast? with _ | x
    · rw [coalesceStep_literal_push_none _ _ hl, textOf_append]
      rfl
    · cases x with
      | inr v =>
        rw [coalesceStep_literal_push_obj _ _ _ hl, textOf_append]
        rfl
      | inl t =>
        have hdec := List.dropLast_append_getLast? _ hl
        rw [coalesceStep_literal_merge _ _ _ hl]
        conv_rhs => rw [← hdec]
        rw [textOf_append, textOf_append]
        show textOf acc.dropLast ++ ((t ++ s) ++ "")
          = (textOf acc.dropLast ++ (t ++ "")) ++ (s ++ "")
        rw [String.append_empty, String.append_empty, String.append_empty,
          String.append_assoc]

theorem textOf_coalesce {T : Type} (parts : List (MessageFormatPart T)) :
    textOf (coalesce parts) = litText parts := by
  have hgen : ∀ acc, textOf (parts.foldl coalesceStep acc) = textOf acc ++ litText parts := by
    induction parts with
    | nil =>
      intro acc
      rw [List.foldl_nil, show litText ([] : List (MessageFormatPart T)) = "" from rfl,
        String.append_empty]
    | cons p t ih =>
      intro acc
      rw [List.foldl_cons, ih, textOf_step]
      cases p with
      | literal s =>
        show (textOf acc ++ (s ++ "")) ++ litText t = textOf acc ++ (s ++ litText t)
        rw [String.append_empty, String.append_assoc]
      | object v =>
        show (textOf acc ++ "") ++ litText t = textOf acc ++ litText t
        rw [String.append_empty]
  unfold coalesce
  rw [hgen [], show textOf ([] : List (String ⊕ T)) = "" from rfl, String.empty_append]

theorem foldl_coalesceStep_singleton_inr {T : Type} {v : T} :
    ∀ (parts : List (MessageFormatPart T)) (acc : List (String ⊕ T)),
      parts.foldl coalesceStep acc = [Sum.inr v] →
        (acc = [Sum.inr v] ∧ parts = []) ∨ (acc = [] ∧ parts = [.object v]) := by
  intro parts
  induction parts with
  | nil => exact fun acc h => Or.inl ⟨h, rfl⟩
  | cons p t ih =>
    intro acc h
    rw [List.foldl_cons] at h
    rcases ih _ h with ⟨hstep, ht⟩ | ⟨hstep, _⟩
    · subst ht
      cases p with
      | object w =>
        rw [coalesceStep_object] at hstep
        rcases acc with _ | ⟨x, acc2⟩
        · rw [List.nil_append] at hstep
          injection hstep with h1 _
          injection h1 with h1
          exact Or.inr ⟨rfl, by rw [h1]⟩
        · exfalso
          have := congrArg List.length hstep
          simp at this
      | literal s =>
        exfalso
        rcases hl : acc.getLast? with _ | x
        · rw [coalesceStep_literal_push_none _ _ hl,
            List.getLast?_eq_none_iff.mp hl, List.nil_append] at hstep
          injection hstep with h1 _
          exact Sum.noConfusion h1
        · cases x with
          | inl u =>
            rw [coalesceStep_literal_merge _ _ _ hl] at hstep
            rcases hd : acc.dropLast with _ | ⟨y, d2⟩
            · rw [hd, List.nil_append] at hstep
              injection hstep with h1 _
              exact Sum.noConfusion h1
            · rw [hd] at hstep
              have := congrArg List.length hstep
              simp at this
          | inr w =>
            rw [coalesceStep_literal_push_obj _ _ _ hl] at hstep
            rcases acc with _ | ⟨y, acc2⟩
            · simp at hl
            · have := congrArg List.length hstep
              simp at this
    · exact absurd hstep (coalesceStep_ne_nil acc p)

/-- A singleton rich-value result of the coalescing reduce can only come
from a part list that is itself the corresponding singleton; it justifies
that the bare-object arm of format is unreachable for multi-part input. -/
theorem coalesce_singleton_object {T : Type} {parts : List (MessageFormatPart T)} {v : T}
    (h : coalesce parts = [Sum.inr v]) : parts = [.object v] := by
  unfold coalesce at h
  rcases foldl_coalesceStep_singleton_inr parts [] h with ⟨ha, _⟩ | ⟨_, hp⟩
  · exact List.noConfusion ha
  · exact hp

/-- Claim C10 (confirmed): when formatToParts yields an empty part
sequence (for instance for a facade built from an empty ast), format
returns the empty string -- a bare string, not an empty sequence and not
an error. -/
theorem c10_empty_parts {T : Type} :
    IntlMessageFormat.format ([] : List (MessageFormatPart T))
      = FormatResult.bareString "" := rfl

/-- Claim C4 (refuted as stated): on two adjacent literal parts, format
does not return an ordered sequence with the coalesced string -- it
returns the coalesced string bare, because the source returns the sole
element whenever the coalesced sequence has at most one element. -/
theorem c4_counterexample :
    IntlMessageFormat.format
        ([MessageFormatPart.literal "a", MessageFormatPart.literal "b"]
          : List (MessageFormatPart Unit))
      = FormatResult.bareString "ab"
    ∧ IntlMessageFormat.format
        ([MessageFormatPart.literal "a", MessageFormatPart.literal "b"]
          : List (MessageFormatPart Unit))
      ≠ FormatResult.seq [Sum.inl "ab"] := by
  exact ⟨rfl, by decide⟩

/-- Claim C4 (amended): a single part is returned bare; otherwise format
coalesces every run of adjacent literal parts into one string while
keeping object parts as distinct elements in order (the coalesced
sequence has no two adjacent strings, preserves the object values in
order, and preserves the concatenated literal text), and the result is
returned as a sequence only when it has at least two elements -- a
coalesced result of at most one element is returned bare (the empty
string when it is empty). -/
theorem c4_amended {T : Type} (parts : List (MessageFormatPart T)) :
    (∀ p, parts = [p] → IntlMessageFormat.format parts = partValue p) ∧
    (parts.length ≠ 1 →
      (2 ≤ (coalesce parts).length →
        IntlMessageFormat.format parts = FormatResult.seq (coalesce parts)) ∧
      (coalesce parts = [] → IntlMessageFormat.format parts = FormatResult.bareString "") ∧
      (∀ s, coalesce parts = [Sum.inl s] →
        IntlMessageFormat.format parts = FormatResult.bareString s)) ∧
    NoAdjacentStrings (coalesce parts) ∧
    (coalesce parts).filterMap objElem = parts.filterMap objOfPart ∧
    textOf (coalesce parts) = litText parts := by
  refine ⟨?_, ?_, noadj_coalesce parts, objs_coalesce parts, textOf_coalesce parts⟩
  · intro p hp
    subst hp
    rfl
  · intro hlen
    rcases parts with _ | ⟨a, _ | ⟨b, t⟩⟩
    · refine ⟨fun h2 => ?_, fun _ => rfl, fun s hs => ?_⟩
      · rw [show coalesce ([] : List (MessageFormatPart T)) = [] from rfl] at h2
        simp at h2
      · rw [show coalesce ([] : List (MessageFormatPart T)) = [] from rfl] at hs
        exact List.noConfusion hs
    · exact absurd rfl hlen
    · have hred : IntlMessageFormat.format (a :: b :: t) =
          (if (coalesce (a :: b :: t)).length ≤ 1 then
            match (coalesce (a :: b :: t)).head? with
            | none => FormatResult.bareString ""
            | some (Sum.inl s) => FormatResult.bareString s
            | some (Sum.inr v) => FormatResult.bareObject v
          else FormatResult.seq (coalesce (a :: b :: t))) := rfl
      refine ⟨?_, ?_, ?_⟩
      · intro h2
        rw [hred, if_neg (by omega)]
      · intro h0
        rw [show coalesce (a :: b :: t)
            = (b :: t).foldl coalesceStep (coalesceStep [] a) from rfl] at h0
        exact absurd h0 (foldl_coalesceStep_ne_nil (b :: t) _ (coalesceStep_ne_nil [] a))
      · intro s hs
        rw [hred, hs]
        simp

/-- Witness for c4_amended: a concrete four-part sequence whose two
leading literals coalesce into one string ahead of an object part and a
trailing literal; format returns the three-element sequence. -/
theorem c4_amended_witness :
    IntlMessageFormat.format
        ([MessageFormatPart.literal "a", MessageFormatPart.literal "b",
          MessageFormatPart.object (), MessageFormatPart.literal "c"]
          : List (MessageFormatPart Unit))
      = FormatResult.seq [Sum.inl "ab", Sum.inr (), Sum.inl "c"] := by
  have h := ((c4_amended
      ([MessageFormatPart.literal "a", MessageFormatPart.literal "b",
        MessageFormatPart.object (), MessageFormatPart.literal "c"]
        : List (MessageFormatPart Unit))).2.1 (by decide)).1 (by decide)
  rw [h]
  decide

/-! Injectivity of the concrete serialization used in the cache witness. -/

theorem charToNat_injective : Function.Injective Char.toNat := fun _ _ h =>
  Char.ext (UInt32.ext h)

theorem stringData_injective : Function.Injective String.data := fun a b h => by
  cases a
  cases b
  exact congrArg String.mk h

theorem encodeListNat_injective : Function.Injective encodeListNat := by
  intro a
  induction a with
  | nil =>
    intro b h
    cases b with
    | nil => rfl
    | cons y ys =>
      rw [show encodeListNat [] = 0 from rfl,
        show encodeListNat (y :: ys) = Nat.pair y (encodeListNat ys) + 1 from rfl] at h
      exact absurd h (by omega)
  | cons x xs ih =>
    intro b h
    cases b with
    | nil =>
      rw [show encodeListNat [] = 0 from rfl,
        show encodeListNat (x :: xs) = Nat.pair x (encodeListNat xs) + 1 from rfl] at h
      exact absurd h (by omega)
    | cons y ys =>
      rw [show encodeListNat (x :: xs) = Nat.pair x (encodeListNat xs) + 1 from rfl,
        show encodeListNat (y :: ys) = Nat.pair y (encodeListNat ys) + 1 from rfl] at h
      have h2 : Nat.pair x (encodeListNat xs) = Nat.pair y (encodeListNat ys) := by omega
      obtain ⟨h3, h4⟩ := Nat.pair_eq_pair.mp h2
      rw [h3, ih h4]

theorem encodeStr_injective : Function.Injective encodeStr := by
  intro a b h
  unfold encodeStr at h
  exact stringData_injective
    (List.map_injective_iff.mpr charToNat_injective (encodeListNat_injective h))

theorem encodePairStr_injective :
    Function.Injective (fun p : String × String => Nat.pair (encodeStr p.1) (encodeStr p.2)) := by
  intro p q h
  obtain ⟨p1, p2⟩ := p
  obtain ⟨q1, q2⟩ := q
  simp only at h
  obtain ⟨h1, h2⟩ := Nat.pair_eq_pair.mp h
  rw [encodeStr_injective h1, encodeStr_injective h2]

theorem encodeArgs_injective : Function.Injective encodeArgs := by
  intro a b h
  unfold encodeArgs at h
  obtain ⟨h1, h2⟩ := Nat.pair_eq_pair.mp h
  have hl : a.locales = b.locales :=
    List.map_injective_iff.mpr encodeStr_injective (encodeListNat_injective h1)
  have ho : a.options = b.options :=
    List.map_injective_iff.mpr encodePairStr_injective (encodeListNat_injective h2)
  obtain ⟨al, ao⟩ := a
  obtain ⟨bl, bo⟩ := b
  rw [show ({ locales := al, options := ao } : FmtArgs).locales = al from rfl,
    show ({ locales := bl, options := bo } : FmtArgs).locales = bl from rfl] at hl
  rw [show ({ locales := al, options := ao } : FmtArgs).options = ao from rfl,
    show ({ locales := bl, options := bo } : FmtArgs).options = bo from rfl] at ho
  rw [hl, ho]

theorem serializeArgs_injective : Function.Injective serializeArgs := by
  intro a b h
  unfold serializeArgs at h
  have h1 : List.replicate (encodeArgs a) 'k' = List.replicate (encodeArgs b) 'k' := by
    injection h
  have h2 : encodeArgs a = encodeArgs b := by
    have := congrArg List.length h1
    simpa using this
  exact encodeArgs_injective h2

/-! Lemmas about the formatter cache. -/

theorem getFormatter_eq (σ : FmtArgs → String) (kind : FmtKind) (s : FormatterCache)
    (args : FmtArgs) :
    getFormatter σ kind s args
      = match lookupJS (s.store kind) (σ args) with
        | some v => (v, s)
        | none =>
          (⟨s.next, args⟩,
            { s.withStore kind (s.store kind ++ [(σ args, ⟨s.next, args⟩)]) with
              next := s.next + 1 }) := rfl

theorem getFormatter_hit (σ : FmtArgs → String) (kind : FmtKind) (s : FormatterCache)
    (args : FmtArgs) (v : FmtHandle) (h : lookupJS (s.store kind) (σ args) = some v) :
    getFormatter σ kind s args = (v, s) := by
  rw [getFormatter_eq, h]

theorem getFormatter_miss (σ : FmtArgs → String) (kind : FmtKind) (s : FormatterCache)
    (args : FmtArgs) (h : lookupJS (s.store kind) (σ args) = none) :
    getFormatter σ kind s args
      = (⟨s.next, args⟩,
          { s.withStore kind (s.store kind ++ [(σ args, ⟨s.next, args⟩)]) with
            next := s.next + 1 }) := by
  rw [getFormatter_eq, h]

theorem store_withStore (s : FormatterCache) (k : FmtKind)
    (st : Obj String FmtHandle) (k2 : FmtKind) :
    (s.withStore k st).store k2 = if k2 = k then st else s.store k2 := by
  cases k <;> cases k2 <;> simp [FormatterCache.store, FormatterCache.withStore]

theorem store_setNext (s : FormatterCache) (n : Nat) (k : FmtKind) :
    ({ s with next := n } : FormatterCache).store k = s.store k := by
  cases k <;> rfl

theorem getFormatter_store_mono (σ : FmtArgs → String) (kind : FmtKind)
    (s : FormatterCache) (args : FmtArgs) (k2 : FmtKind) :
    ∃ ext, ((getFormatter σ kind s args).2).store k2 = s.store k2 ++ ext := by
  rcases h : lookupJS (s.store kind) (σ args) with _ | v
  · rw [getFormatter_miss σ kind s args h]
    by_cases hk : k2 = kind
    · subst hk
      exact ⟨[(σ args, ⟨s.next, args⟩)], by rw [store_setNext, store_withStore, if_pos rfl]⟩
    · exact ⟨[], by rw [store_setNext, store_withStore, if_neg hk, List.append_nil]⟩
  · rw [getFormatter_hit σ kind s args v h]
    exact ⟨[], (List.append_nil _).symm⟩

theorem runCalls_cons (σ : FmtArgs → String) (s : FormatterCache)
    (c : FmtKind × FmtArgs) (cs : List (FmtKind × FmtArgs)) :
    runCalls σ s (c :: cs) = runCalls σ (getFormatter σ c.1 s c.2).2 cs := rfl

theorem runCalls_store_mono (σ : FmtArgs → String) :
    ∀ (calls : List (FmtKind × FmtArgs)) (s : FormatterCache) (k2 : FmtKind),
      ∃ ext, (runCalls σ s calls).store k2 = s.store k2 ++ ext := by
  intro calls
  induction calls with
  | nil => exact fun s k2 => ⟨[], (List.append_nil _).symm⟩
  | cons c cs ih =>
    intro s k2
    obtain ⟨e1, he1⟩ := getFormatter_store_mono σ c.1 s c.2 k2
    obtain ⟨e2, he2⟩ := ih (getFormatter σ c.1 s c.2).2 k2
    exact ⟨e1 ++ e2, by rw [runCalls_cons, he2, he1, List.append_assoc]⟩

theorem lookup_persists_runCalls (σ : FmtArgs → String) (calls : List (FmtKind × FmtArgs))
    (s : FormatterCache) {kind : FmtKind} {key : String} {v : FmtHandle}
    (h : lookupJS (s.store kind) key = some v) :
    lookupJS ((runCalls σ s calls).store kind) key = some v := by
  obtain ⟨ext, he⟩ := runCalls_store_mono σ calls s kind
  rw [he]
  exact lookupJS_append_of_some _ h

theorem getFormatter_lookup_self (σ : FmtArgs → String) (kind : FmtKind)
    (s : FormatterCache) (args : FmtArgs) :
    lookupJS (((getFormatter σ kind s args).2).store kind) (σ args)
      = some ((getFormatter σ kind s args).1) := by
  rcases h : lookupJS (s.store kind) (σ args) with _ | v
  · rw [getFormatter_miss σ kind s args h, store_setNext, store_withStore, if_pos rfl,
      lookupJS_append_of_none _ h, lookupJS_cons, if_pos rfl]
  · rw [getFormatter_hit σ kind s args v h]
    exact h

theorem cacheWF_empty (σ : FmtArgs → String) : CacheWF σ emptyCache := by
  intro kind e he
  cases kind <;> simp [emptyCache, FormatterCache.store] at he

theorem cacheWF_getFormatter (σ : FmtArgs → String) (kind : FmtKind)
    (s : FormatterCache) (args : FmtArgs) (h : CacheWF σ s) :
    CacheWF σ ((getFormatter σ kind s args).2) := by
  rcases hl : lookupJS (s.store kind) (σ args) with _ | v
  · rw [getFormatter_miss σ kind s args hl]
    intro k2 e he
    rw [store_setNext, store_withStore] at he
    by_cases hk : k2 = kind
    · rw [if_pos hk] at he
      rcases List.mem_append.mp he with hm | hm
      · exact h k2 e (by rw [hk]; exact hm)
      · simp at hm
        rw [hm]
    · rw [if_neg hk] at he
      exact h k2 e he
  · rw [getFormatter_hit σ kind s args v hl]
    exact h

theorem cacheWF_runCalls (σ : FmtArgs → String) :
    ∀ (calls : List (FmtKind × FmtArgs)) (s : FormatterCache),
      CacheWF σ s → CacheWF σ (runCalls σ s calls) := by
  intro calls
  induction calls with
  | nil => exact fun s h => h
  | cons c cs ih =>
    intro s h
    rw [runCalls_cons]
    exact ih _ (cacheWF_getFormatter σ c.1 s c.2 h)

theorem getFormatter_args (σ : FmtArgs → String) (hinj : Function.Injective σ)
    (kind : FmtKind) (s : FormatterCache) (args : FmtArgs) (h : CacheWF σ s) :
    ((getFormatter σ kind s args).1).args = args := by
  rcases hl : lookupJS (s.store kind) (σ args) with _ | v
  · rw [getFormatter_miss σ kind s args hl]
  · rw [getFormatter_hit σ kind s args v hl]
    exact hinj (h kind _ (lookupJS_some_mem hl))

/-- Claim C3 (confirmed): over the lifetime of one formatter cache object
(created empty and driven only by get calls), two get calls of the same
kind return the identical stored object when their arguments are
structurally equal -- regardless of the calls in between -- and return
distinct objects when the arguments differ, provided the external
serialization separates distinct arguments (which the spec requires of
it).  The memoization discipline of the external fast-memoize library is
modelled from the spec. -/
theorem c3_cache_identity (σ : FmtArgs → String) (hinj : Function.Injective σ)
    (pre mid : List (FmtKind × FmtArgs)) (kind : FmtKind) (a1 a2 : FmtArgs) :
    ((a1 = a2) →
      (getFormatter σ kind
          (runCalls σ (getFormatter σ kind (runCalls σ emptyCache pre) a1).2 mid) a2).1
        = (getFormatter σ kind (runCalls σ emptyCache pre) a1).1) ∧
    ((a1 ≠ a2) →
      (getFormatter σ kind
          (runCalls σ (getFormatter σ kind (runCalls σ emptyCache pre) a1).2 mid) a2).1
        ≠ (getFormatter σ kind (runCalls σ emptyCache pre) a1).1) := by
  have hwf0 : CacheWF σ (runCalls σ emptyCache pre) :=
    cacheWF_runCalls σ pre emptyCache (cacheWF_empty σ)
  have hwf1 : CacheWF σ (getFormatter σ kind (runCalls σ emptyCache pre) a1).2 :=
    cacheWF_getFormatter σ kind _ a1 hwf0
  have hwf2 : CacheWF σ
      (runCalls σ (getFormatter σ kind (runCalls σ emptyCache pre) a1).2 mid) :=
    cacheWF_runCalls σ mid _ hwf1
  constructor
  · intro he
    subst he
    have hpers := lookup_persists_runCalls σ mid _
      (getFormatter_lookup_self σ kind (runCalls σ emptyCache pre) a1)
    rw [getFormatter_hit σ kind _ a1 _ hpers]
  · intro hne heq
    apply hne
    have h1 : ((getFormatter σ kind (runCalls σ emptyCache pre) a1).1).args = a1 :=
      getFormatter_args σ hinj kind _ a1 hwf0
    have h2 : ((getFormatter σ kind
        (runCalls σ (getFormatter σ kind (runCalls σ emptyCache pre) a1).2 mid) a2).1).args
          = a2 := getFormatter_args σ hinj kind _ a2 hwf2
    rw [← h1, ← h2, heq]

/-- Witness for c3_cache_identity: the concrete injective serialization,
a repeated number-format request around an interleaved date-time request
returns the identical object, and a request with one differing option
field returns a distinct object. -/
theorem c3_cache_identity_witness :
    Function.Injective serializeArgs ∧
    (getFormatter serializeArgs FmtKind.number
        (runCalls serializeArgs
          (getFormatter serializeArgs FmtKind.number (runCalls serializeArgs emptyCache [])
            ⟨["en"], [("style", "decimal")]⟩).2
          [(FmtKind.dateTime, ⟨["en"], []⟩)])
        ⟨["en"], [("style", "decimal")]⟩).1
      = (getFormatter serializeArgs FmtKind.number (runCalls serializeArgs emptyCache [])
          ⟨["en"], [("style", "decimal")]⟩).1 ∧
    (getFormatter serializeArgs FmtKind.number
        (runCalls serializeArgs
          (getFormatter serializeArgs FmtKind.number (runCalls serializeArgs emptyCache [])
            ⟨["en"], [("style", "decimal")]⟩).2
          [(FmtKind.dateTime, ⟨["en"], []⟩)])
        ⟨["en"], [("style", "percent")]⟩).1
      ≠ (getFormatter serializeArgs FmtKind.number (runCalls serializeArgs emptyCache [])
          ⟨["en"], [("style", "decimal")]⟩).1 :=
  ⟨serializeArgs_injective,
    (c3_cache_identity serializeArgs serializeArgs_injective []
      [(FmtKind.dateTime, ⟨["en"], []⟩)] FmtKind.number
      ⟨["en"], [("style", "decimal")]⟩ ⟨["en"], [("style", "decimal")]⟩).1 rfl,
    (c3_cache_identity serializeArgs serializeArgs_injective []
      [(FmtKind.dateTime, ⟨["en"], []⟩)] FmtKind.number
      ⟨["en"], [("style", "decimal")]⟩ ⟨["en"], [("style", "percent")]⟩).2 (by decide)⟩
